import Mathlib

/-!
Shallow embedding of the food-label verification core (src/src/index.js and
the HTTP variant, which duplicates the same core functions).

Strings are modelled as `List Char` (JS strings of BMP code units; all inputs
of interest here are single code units).  JS numbers are modelled as `ℚ` for
the similarity scores and `ℤ` for the rounded confidence values.  The
external record-store call is modelled by passing the transport outcome
(`Except` of a decoded response) as an explicit argument.
-/

set_option maxHeartbeats 1000000

/-- `Char.toLower` applied pointwise, modelling `String.prototype.toLowerCase`
(ASCII range; identity on the Hangul ranges exercised by this program). -/
def toLower (s : List Char) : List Char := s.map Char.toLower

/-- Model of JS `Math.round` for the non-negative scores used here:
round half toward positive infinity. -/
def jsRound (q : ℚ) : ℤ := ⌊q + 1 / 2⌋

/-! ## Edit-Distance Engine: `getEditDistance` (index.js lines 88-107) -/

/-- Inner loop of `getEditDistance` for one row `i > 0`: walking the remaining
characters of `str2` together with the tail of the previous row.  `left` is
the running `lastValue` (the entry just computed in the new row), the head of
`prev` is `costs[j-1]` (the diagonal) and the next entry is `costs[j]`.
Produces the new row entries for columns `1..len2`. -/
def levAux (c : Char) : List Char → List Nat → Nat → List Nat
  | [], _, _ => []
  | b :: bs, prev, left =>
    let diag := prev.headD 0
    let above := prev.tail.headD 0
    let cur := if c = b then diag else min (min diag left) above + 1
    cur :: levAux c bs prev.tail cur

/-- Outer loop of `getEditDistance`: fold the rows over the characters of
`str1`; `i` is the number of characters of `str1` consumed so far and `prev`
the row of costs for that prefix. -/
def levLoop (s2 : List Char) : List Char → Nat → List Nat → List Nat
  | [], _, prev => prev
  | c :: cs, i, prev => levLoop s2 cs (i + 1) ((i + 1) :: levAux c s2 prev (i + 1))

/-- JS `getEditDistance(str1, str2)`: row-wise dynamic programming starting
from `costs[j] = j`, returning `costs[str2.length]` of the final row. -/
def getEditDistance (str1 str2 : List Char) : Nat :=
  (levLoop str2 str1 0 (List.range (str2.length + 1))).getLastD 0

/-- JS `calculateSimilarity(str1, str2)` (index.js lines 76-86): 0 when either
string is empty (JS falsy guard), otherwise
`(longer.length - editDistance) / longer.length`. -/
def calculateSimilarity (str1 str2 : List Char) : ℚ :=
  if str1 = [] ∨ str2 = [] then 0
  else
    let longer := if str2.length < str1.length then str1 else str2
    let shorter := if str2.length < str1.length then str2 else str1
    if longer.length = 0 then 1
    else ((longer.length : ℚ) - (getEditDistance longer shorter : ℚ)) / (longer.length : ℚ)

/-! ## Ingredient Tokenizer: `parseIngredients` (index.js lines 112-120) -/

/-- The delimiter class of the split regex in `parseIngredients`. -/
def isDelim (c : Char) : Bool := c = ',' || c = ';' || c = '/'

/-- `String.prototype.split(/[,;\x2f]/)`: segments between delimiter
occurrences, empty segments included. -/
def splitDelim : List Char → List (List Char)
  | [] => [[]]
  | c :: cs =>
    if isDelim c then [] :: splitDelim cs
    else
      match splitDelim cs with
      | [] => [[c]]
      | t :: ts => (c :: t) :: ts

/-- `String.prototype.trim`: drop whitespace from both ends. -/
def trim (s : List Char) : List Char :=
  ((s.dropWhile Char.isWhitespace).reverse.dropWhile Char.isWhitespace).reverse

/-- JS `parseIngredients(ingredientString)`: empty for a falsy input, else
split on the delimiters, trim each piece, keep the non-empty pieces. -/
def parseIngredients (ingredientString : List Char) : List (List Char) :=
  if ingredientString = [] then []
  else ((splitDelim ingredientString).map trim).filter (fun item => 0 < item.length)

/-! ## Ingredient Reconciler: `verifyIngredients` (index.js lines 125-168) -/

/-- A correction entry pushed by `verifyIngredients`. -/
structure Correction where
  original : List Char
  corrected : List Char
  confidence : ℤ
deriving DecidableEq, Repr

/-- One step of the inner best-match loop of `verifyIngredients`: the
accumulator is the pair `(bestMatch, bestSimilarity)`, updated only on a
strictly greater similarity. -/
def bestStep (ocrIngredient : List Char) (acc : Option (List Char) × ℚ)
    (dbIngredient : List Char) : Option (List Char) × ℚ :=
  let similarity := calculateSimilarity (toLower ocrIngredient) (toLower dbIngredient)
  if acc.2 < similarity then (some dbIngredient, similarity) else acc

/-- Body of the outer loop of `verifyIngredients` for one OCR token: the
pushed verified token together with the pushed correction, if any.  The
`none` branch under a best similarity above the threshold is unreachable
(a positive similarity forces a recorded match); it is mapped to the
pass-through behaviour. -/
def processToken (dbIngredients : List (List Char)) (ocrIngredient : List Char) :
    List Char × Option Correction :=
  let best := dbIngredients.foldl (bestStep ocrIngredient) (none, 0)
  if (7 / 10 : ℚ) < best.2 then
    match best.1 with
    | some bestMatch =>
      (bestMatch,
        if ocrIngredient = bestMatch then none
        else some ⟨ocrIngredient, bestMatch, jsRound (best.2 * 100)⟩)
    | none => (ocrIngredient, none)
  else (ocrIngredient, none)

/-- Return value of `verifyIngredients`. -/
structure ReconcileOutput where
  verified : List (List Char)
  corrections : List Correction
  dbIngredients : List (List Char)
deriving DecidableEq, Repr

/-- JS `verifyIngredients(ocrIngredients, dbIngredientsString)`: parse the DB
raw text, then for each OCR token in order push its verified token and any
correction. -/
def verifyIngredients (ocrIngredients : List (List Char))
    (dbIngredientsString : List Char) : ReconcileOutput :=
  let dbIngredients := parseIngredients dbIngredientsString
  let step := fun (acc : List (List Char) × List Correction) (ocrIngredient : List Char) =>
    let r := processToken dbIngredients ocrIngredient
    (acc.1 ++ [r.1], acc.2 ++ r.2.toList)
  let folded := ocrIngredients.foldl step ([], [])
  ⟨folded.1, folded.2, dbIngredients⟩

/-! ## Classic Levenshtein distance and correctness of the DP -/

/-- Textbook Levenshtein edit distance: unit-cost single-character insertion,
deletion and substitution. -/
def lev : List Char → List Char → Nat
  | [], ys => ys.length
  | _ :: xs, [] => xs.length + 1
  | x :: xs, y :: ys =>
    if x = y then lev xs ys
    else min (min (lev xs ys) (lev (x :: xs) ys)) (lev xs (y :: ys)) + 1
termination_by xs ys => xs.length + ys.length

theorem lev_nil_left (ys : List Char) : lev [] ys = ys.length := by
  simp [lev]

theorem lev_nil_right (xs : List Char) : lev xs [] = xs.length := by
  cases xs <;> simp [lev]

theorem lev_self (xs : List Char) : lev xs xs = 0 := by
  induction xs with
  | nil => simp [lev]
  | cons x xs ih => simp [lev, ih]

theorem lev_le_max (xs ys : List Char) : lev xs ys ≤ max xs.length ys.length := by
  induction xs generalizing ys with
  | nil => simp [lev]
  | cons x xs ih =>
    cases ys with
    | nil => simp [lev_nil_right]
    | cons y ys =>
      simp only [lev]
      split
      · have := ih ys
        simp only [List.length_cons]
        omega
      · have h1 := ih ys
        have h2 := ih (y :: ys)
        simp only [List.length_cons] at *
        omega

theorem lev_symm_aux :
    ∀ (n : Nat) (xs ys : List Char), xs.length + ys.length ≤ n → lev xs ys = lev ys xs := by
  intro n
  induction n with
  | zero =>
    intro xs ys h
    match xs, ys with
    | [], [] => rfl
    | x :: xs, _ => simp at h
    | [], y :: ys => simp at h
  | succ n ih =>
    intro xs ys h
    match xs, ys with
    | [], ys => simp [lev_nil_left, lev_nil_right]
    | x :: xs, [] => simp [lev_nil_left, lev_nil_right]
    | x :: xs, y :: ys =>
      simp only [List.length_cons] at h
      have h1 : xs.length + ys.length ≤ n := by omega
      have h2 : (x :: xs).length + ys.length ≤ n := by simp; omega
      have h3 : xs.length + (y :: ys).length ≤ n := by simp; omega
      simp only [lev]
      by_cases hxy : x = y
      · subst hxy
        simp [ih xs ys h1]
      · rw [if_neg hxy, if_neg (fun hyx => hxy hyx.symm)]
        rw [ih xs ys h1, ih (x :: xs) ys h2, ih xs (y :: ys) h3]
        omega

theorem lev_symm (xs ys : List Char) : lev xs ys = lev ys xs :=
  lev_symm_aux (xs.length + ys.length) xs ys le_rfl
theorem lev_cons_cons (x y : Char) (xs ys : List Char) :
    lev (x :: xs) (y :: ys) =
      if x = y then lev xs ys
      else min (min (lev xs ys) (lev (x :: xs) ys)) (lev xs (y :: ys)) + 1 := by
  simp only [lev]

theorem lev_cons_cons_same (x : Char) (xs ys : List Char) :
    lev (x :: xs) (x :: ys) = lev xs ys := by
  simp [lev]

theorem lev_snoc_aux :
    ∀ (n : Nat) (p q : List Char) (c d : Char), p.length + q.length ≤ n →
      lev (p ++ [c]) (q ++ [d]) =
        if c = d then lev p q
        else min (min (lev p q) (lev (p ++ [c]) q)) (lev p (q ++ [d])) + 1 := by
  intro n
  induction n with
  | zero =>
    intro p q c d h
    match p, q with
    | [], [] => simp only [List.nil_append]; exact lev_cons_cons c d [] []
    | _ :: _, _ => simp at h
    | [], _ :: _ => simp at h
  | succ n ih =>
    intro p q c d h
    match p, q with
    | [], [] => simp only [List.nil_append]; exact lev_cons_cons c d [] []
    | [], b :: q' =>
      have e1 := ih [] q' c d (by simp only [List.length_nil, List.length_cons] at h ⊢; omega)
      simp only [List.nil_append] at e1
      simp only [List.nil_append, List.cons_append]
      have hL := lev_cons_cons c b [] (q' ++ [d])
      have hR := lev_cons_cons c b [] q'
      rw [hL]
      simp only [lev_nil_left, List.length_append, List.length_cons, List.length_nil] at e1 hR ⊢
      rw [hR, e1]
      split_ifs <;> omega
    | a :: p', [] =>
      have e1 := ih p' [] c d (by simp only [List.length_nil, List.length_cons] at h ⊢; omega)
      simp only [List.nil_append] at e1
      simp only [List.nil_append, List.cons_append]
      have hL := lev_cons_cons a d (p' ++ [c]) []
      have hR := lev_cons_cons a d p' []
      rw [hL, hR, e1]
      simp only [lev_nil_right, lev_nil_left, List.length_append, List.length_cons,
        List.length_nil]
      split_ifs <;> omega
    | a :: p', b :: q' =>
      simp only [List.length_cons] at h
      have ih1 := ih p' q' c d (by omega)
      have ih2 := ih (a :: p') q' c d (by simp only [List.length_cons]; omega)
      have ih3 := ih p' (b :: q') c d (by simp only [List.length_cons]; omega)
      simp only [List.cons_append] at ih2 ih3 ⊢
      by_cases hab : a = b
      · subst hab
        simp only [lev_cons_cons_same]
        exact ih1
      · rw [lev_cons_cons a b (p' ++ [c]) (q' ++ [d]), if_neg hab]
        rw [lev_cons_cons a b p' q', if_neg hab]
        rw [lev_cons_cons a b (p' ++ [c]) q', if_neg hab]
        rw [lev_cons_cons a b p' (q' ++ [d]), if_neg hab]
        rw [ih1, ih2, ih3]
        by_cases hcd : c = d
        · rw [if_pos hcd, if_pos hcd, if_pos hcd, if_pos hcd]
        · rw [if_neg hcd, if_neg hcd, if_neg hcd, if_neg hcd]
          generalize lev p' q' = A1
          generalize lev (p' ++ [c]) q' = B1
          generalize lev p' (q' ++ [d]) = C1
          generalize lev (a :: p') q' = A2
          generalize lev (a :: (p' ++ [c])) q' = B2
          generalize lev (a :: p') (q' ++ [d]) = C2
          generalize lev p' (b :: q') = A3
          generalize lev (p' ++ [c]) (b :: q') = B3
          generalize lev p' (b :: (q' ++ [d])) = C3
          simp only [min_add_add_right]
          simp [min_assoc, min_comm, min_left_comm]

theorem lev_snoc (p q : List Char) (c d : Char) :
    lev (p ++ [c]) (q ++ [d]) =
      if c = d then lev p q
      else min (min (lev p q) (lev (p ++ [c]) q)) (lev p (q ++ [d])) + 1 :=
  lev_snoc_aux (p.length + q.length) p q c d le_rfl

/-- The row of distances `lev p (q ++ t)` for `t` ranging over the prefixes of
`bs` (the empty prefix included). -/
def rowAux (p q : List Char) : List Char → List Nat
  | [] => [lev p q]
  | b :: bs => lev p q :: rowAux p (q ++ [b]) bs

theorem rowAux_ne_nil (p q bs : List Char) : rowAux p q bs ≠ [] := by
  cases bs <;> simp [rowAux]

theorem rowAux_head (p q bs : List Char) :
    rowAux p q bs = lev p q :: (rowAux p q bs).tail := by
  cases bs <;> rfl

theorem rowAux_nil_left (bs q : List Char) :
    rowAux [] q bs = List.range' q.length (bs.length + 1) := by
  induction bs generalizing q with
  | nil => simp [rowAux, lev_nil_left, List.range']
  | cons b bs ih =>
    show lev [] q :: rowAux [] (q ++ [b]) bs = _
    rw [lev_nil_left, ih (q ++ [b])]
    have : List.range' q.length (bs.length + 1 + 1) =
        q.length :: List.range' (q.length + 1) (bs.length + 1) := rfl
    simp [this, List.length_append]

theorem levAux_spec (c : Char) :
    ∀ (bs p q : List Char),
      levAux c bs (rowAux p q bs) (lev (p ++ [c]) q) = (rowAux (p ++ [c]) q bs).tail := by
  intro bs
  induction bs with
  | nil => intro p q; rfl
  | cons b bs ih =>
    intro p q
    have hrow : rowAux p q (b :: bs) = lev p q :: rowAux p (q ++ [b]) bs := rfl
    have habove : (rowAux p (q ++ [b]) bs).headD 0 = lev p (q ++ [b]) := by
      rw [rowAux_head p (q ++ [b]) bs]; rfl
    rw [hrow]
    simp only [levAux, List.headD_cons, List.tail_cons]
    rw [habove, ← lev_snoc p q c b]
    have hR : (rowAux (p ++ [c]) q (b :: bs)).tail = rowAux (p ++ [c]) (q ++ [b]) bs := rfl
    rw [hR, ih p (q ++ [b])]
    exact (rowAux_head (p ++ [c]) (q ++ [b]) bs).symm

theorem levLoop_inv (s2 : List Char) :
    ∀ (cs p : List Char), levLoop s2 cs p.length (rowAux p [] s2) = rowAux (p ++ cs) [] s2 := by
  intro cs
  induction cs with
  | nil => intro p; simp [levLoop]
  | cons c cs ih =>
    intro p
    show levLoop s2 cs (p.length + 1)
        ((p.length + 1) :: levAux c s2 (rowAux p [] s2) (p.length + 1)) = _
    have hleft : p.length + 1 = lev (p ++ [c]) [] := by
      rw [lev_nil_right, List.length_append, List.length_cons, List.length_nil]
    have hnew : (p.length + 1) :: levAux c s2 (rowAux p [] s2) (p.length + 1) =
        rowAux (p ++ [c]) [] s2 := by
      conv_lhs => rw [hleft]
      rw [levAux_spec c s2 p []]
      exact (rowAux_head (p ++ [c]) [] s2).symm
    rw [hnew]
    have hlen : p.length + 1 = (p ++ [c]).length := by
      rw [List.length_append, List.length_cons, List.length_nil]
    rw [hlen, ih (p ++ [c]), List.append_assoc]
    rfl

theorem getLastD_of_ne_nil {l : List Nat} (h : l ≠ []) (d1 d2 : Nat) :
    l.getLastD d1 = l.getLastD d2 := by
  cases l with
  | nil => exact absurd rfl h
  | cons a l =>
    rw [List.getLastD_cons, List.getLastD_cons]

theorem rowAux_getLastD (p : List Char) :
    ∀ (bs q : List Char), (rowAux p q bs).getLastD 0 = lev p (q ++ bs) := by
  intro bs
  induction bs with
  | nil => intro q; simp [rowAux]
  | cons b bs ih =>
    intro q
    show (lev p q :: rowAux p (q ++ [b]) bs).getLastD 0 = _
    rw [List.getLastD_cons, getLastD_of_ne_nil (rowAux_ne_nil p (q ++ [b]) bs) (lev p q) 0,
      ih (q ++ [b]), List.append_assoc]
    rfl

/-- The JS rolling-row dynamic program computes the classic Levenshtein
distance. -/
theorem getEditDistance_eq_lev (s1 s2 : List Char) : getEditDistance s1 s2 = lev s1 s2 := by
  show (levLoop s2 s1 0 (List.range (s2.length + 1))).getLastD 0 = lev s1 s2
  have h0 : List.range (s2.length + 1) = rowAux [] [] s2 := by
    rw [List.range_eq_range', rowAux_nil_left]
    rfl
  have hinv := levLoop_inv s2 s1 []
  simp only [List.length_nil, List.nil_append] at hinv
  rw [h0, hinv, rowAux_getLastD s1 s2 [], List.nil_append]

/-! ## Properties of `calculateSimilarity` -/

theorem calculateSimilarity_empty {a b : List Char} (h : a = [] ∨ b = []) :
    calculateSimilarity a b = 0 := by
  unfold calculateSimilarity
  rw [if_pos h]

theorem calculateSimilarity_eq {a b : List Char} (ha : a ≠ []) (hb : b ≠ []) :
    calculateSimilarity a b =
      ((max a.length b.length : ℕ) - (lev a b : ℚ)) / ((max a.length b.length : ℕ) : ℚ) := by
  unfold calculateSimilarity
  rw [if_neg (by push_neg; exact ⟨ha, hb⟩)]
  have hla : a.length ≠ 0 := fun h => ha (List.eq_nil_of_length_eq_zero h)
  have hlb : b.length ≠ 0 := fun h => hb (List.eq_nil_of_length_eq_zero h)
  by_cases hlt : b.length < a.length
  · simp only [if_pos hlt]
    rw [if_neg hla]
    rw [getEditDistance_eq_lev]
    have hmax : max a.length b.length = a.length := by omega
    rw [hmax]
  · simp only [if_neg hlt]
    rw [if_neg hlb]
    rw [getEditDistance_eq_lev, lev_symm b a]
    have hmax : max a.length b.length = b.length := by omega
    rw [hmax]

theorem calculateSimilarity_self {a : List Char} (ha : a ≠ []) :
    calculateSimilarity a a = 1 := by
  rw [calculateSimilarity_eq ha ha, lev_self]
  have hla : a.length ≠ 0 := fun h => ha (List.eq_nil_of_length_eq_zero h)
  have : ((max a.length a.length : ℕ) : ℚ) ≠ 0 := by
    simp only [max_self]
    exact_mod_cast hla
  field_simp

theorem calculateSimilarity_nonneg (a b : List Char) : 0 ≤ calculateSimilarity a b := by
  by_cases h : a = [] ∨ b = []
  · rw [calculateSimilarity_empty h]
  · push_neg at h
    rw [calculateSimilarity_eq h.1 h.2]
    have hd := lev_le_max a b
    have hM : (1 : ℕ) ≤ max a.length b.length := by
      have : a.length ≠ 0 := fun hh => h.1 (List.eq_nil_of_length_eq_zero hh)
      omega
    apply div_nonneg
    · have : (lev a b : ℚ) ≤ ((max a.length b.length : ℕ) : ℚ) := by exact_mod_cast hd
      linarith
    · positivity

theorem calculateSimilarity_le_one (a b : List Char) : calculateSimilarity a b ≤ 1 := by
  by_cases h : a = [] ∨ b = []
  · rw [calculateSimilarity_empty h]; norm_num
  · push_neg at h
    rw [calculateSimilarity_eq h.1 h.2]
    have hM : (1 : ℕ) ≤ max a.length b.length := by
      have : a.length ≠ 0 := fun hh => h.1 (List.eq_nil_of_length_eq_zero hh)
      omega
    have hMQ : (0 : ℚ) < ((max a.length b.length : ℕ) : ℚ) := by
      exact_mod_cast Nat.lt_of_lt_of_le Nat.zero_lt_one hM
    rw [div_le_one hMQ]
    have : (0 : ℚ) ≤ (lev a b : ℚ) := by positivity
    linarith

/-! ## Characterisation of the best-match loop -/

/-- The similarity the reconciler computes for one OCR token against one DB
token: both lower-cased before calling the engine. -/
def simTo (ocrToken dbToken : List Char) : ℚ :=
  calculateSimilarity (toLower ocrToken) (toLower dbToken)

theorem bestStep_snd (o : List Char) (acc : Option (List Char) × ℚ) (d : List Char) :
    (bestStep o acc d).2 = max acc.2 (simTo o d) := by
  simp only [bestStep, simTo]
  by_cases h : acc.2 < calculateSimilarity (toLower o) (toLower d)
  · rw [if_pos h]
    exact (max_eq_right h.le).symm
  · rw [if_neg h]
    exact (max_eq_left (not_lt.mp h)).symm

theorem bestStep_pos (o : List Char) (acc : Option (List Char) × ℚ) (d : List Char)
    (h : acc.2 < simTo o d) : bestStep o acc d = (some d, simTo o d) := by
  simp only [bestStep, simTo] at *
  rw [if_pos h]

theorem bestStep_neg (o : List Char) (acc : Option (List Char) × ℚ) (d : List Char)
    (h : ¬ acc.2 < simTo o d) : bestStep o acc d = acc := by
  simp only [bestStep, simTo] at *
  rw [if_neg h]

theorem foldBest_snd (o : List Char) :
    ∀ (db : List (List Char)) (acc : Option (List Char) × ℚ),
      (db.foldl (bestStep o) acc).2 = db.foldl (fun m d => max m (simTo o d)) acc.2 := by
  intro db
  induction db with
  | nil => intro acc; rfl
  | cons d db ih =>
    intro acc
    rw [List.foldl_cons, List.foldl_cons, ih, bestStep_snd]

theorem foldBest_snd_mono (o : List Char) :
    ∀ (db : List (List Char)) (acc : Option (List Char) × ℚ),
      acc.2 ≤ (db.foldl (bestStep o) acc).2 := by
  intro db
  induction db with
  | nil => intro acc; exact le_rfl
  | cons d db ih =>
    intro acc
    rw [List.foldl_cons]
    refine le_trans ?_ (ih (bestStep o acc d))
    rw [bestStep_snd]
    exact le_max_left _ _

theorem foldBest_fst_of_eq (o : List Char) :
    ∀ (db : List (List Char)) (acc : Option (List Char) × ℚ),
      (db.foldl (bestStep o) acc).2 = acc.2 → (db.foldl (bestStep o) acc).1 = acc.1 := by
  intro db
  induction db with
  | nil => intro acc _; rfl
  | cons d db ih =>
    intro acc h
    rw [List.foldl_cons] at h ⊢
    by_cases hstep : acc.2 < simTo o d
    · exfalso
      have h1 := foldBest_snd_mono o db (bestStep o acc d)
      rw [bestStep_pos o acc d hstep] at h h1
      have : acc.2 < simTo o d := hstep
      simp only at h1
      rw [h] at h1
      exact absurd (lt_of_lt_of_le hstep h1) (lt_irrefl _)
    · rw [bestStep_neg o acc d hstep] at h ⊢
      exact ih acc h

theorem foldBest_fst_of_lt (o : List Char) :
    ∀ (db : List (List Char)) (acc : Option (List Char) × ℚ),
      acc.2 < (db.foldl (bestStep o) acc).2 →
      (db.foldl (bestStep o) acc).1 =
        db.find? (fun d => decide (simTo o d = (db.foldl (bestStep o) acc).2)) := by
  intro db
  induction db with
  | nil => intro acc h; exact absurd h (lt_irrefl _)
  | cons d db ih =>
    intro acc h
    rw [List.foldl_cons] at h ⊢
    by_cases hstep : acc.2 < simTo o d
    · rw [bestStep_pos o acc d hstep] at h ⊢
      by_cases htop : (db.foldl (bestStep o) (some d, simTo o d)).2 = simTo o d
      · have h1 : (db.foldl (bestStep o) (some d, simTo o d)).2 = ((some d, simTo o d) : Option (List Char) × ℚ).2 := htop
        rw [foldBest_fst_of_eq o db (some d, simTo o d) h1]
        rw [List.find?_cons_of_pos]
        simp [htop]
      · have hmono := foldBest_snd_mono o db (some d, simTo o d)
        simp only at hmono
        have hlt : ((some d, simTo o d) : Option (List Char) × ℚ).2 <
            (db.foldl (bestStep o) (some d, simTo o d)).2 :=
          lt_of_le_of_ne hmono (fun hh => htop hh.symm)
        rw [ih (some d, simTo o d) hlt]
        rw [List.find?_cons_of_neg]
        simp only [decide_eq_true_eq]
        intro hh
        exact htop hh.symm
    · rw [bestStep_neg o acc d hstep] at h ⊢
      rw [ih acc h]
      rw [List.find?_cons_of_neg]
      simp only [decide_eq_true_eq]
      intro hh
      rw [hh] at hstep
      exact hstep h

/-! ## Spec-side reconciler (written from the specification wording) -/

/-- Spec wording: the best similarity for an OCR token is the greatest of the
similarities of its lower-cased form against every lower-cased DB token
(0 when there are none). -/
def bestSimilaritySpec (ocrToken : List Char) (dbTokens : List (List Char)) : ℚ :=
  (dbTokens.map (simTo ocrToken)).foldl max 0

/-- Spec wording: the kept DB token is the one with the strictly greatest
similarity, first-seen winning ties — that is, the first DB token attaining
the best similarity. -/
def bestMatchSpec (ocrToken : List Char) (dbTokens : List (List Char)) : Option (List Char) :=
  dbTokens.find? (fun d => decide (simTo ocrToken d = bestSimilaritySpec ocrToken dbTokens))

/-- Spec wording for one OCR token: above the 0.70 threshold the matched DB
token is appended (with a correction exactly when it differs from the OCR
token, scored `round(bestSimilarity * 100)`); at or below the threshold the
OCR token passes through unchanged with no correction. -/
def reconcileTokenSpec (dbTokens : List (List Char)) (ocrToken : List Char) :
    List Char × Option Correction :=
  let bs := bestSimilaritySpec ocrToken dbTokens
  if (7 / 10 : ℚ) < bs then
    match bestMatchSpec ocrToken dbTokens with
    | some m =>
      (m, if ocrToken = m then none else some ⟨ocrToken, m, jsRound (bs * 100)⟩)
    | none => (ocrToken, none)
  else (ocrToken, none)

/-- Spec wording of `reconcile`: tokenize the DB raw text, process the OCR
tokens in input order, collecting the verified tokens and the corrections. -/
def reconcileSpec (ocrTokens : List (List Char)) (dbRawText : List Char) : ReconcileOutput :=
  let dbTokens := parseIngredients dbRawText
  ⟨ocrTokens.map (fun o => (reconcileTokenSpec dbTokens o).1),
   ocrTokens.filterMap (fun o => (reconcileTokenSpec dbTokens o).2),
   dbTokens⟩

theorem foldBest_snd_eq_spec (o : List Char) (db : List (List Char)) :
    (db.foldl (bestStep o) (none, 0)).2 = bestSimilaritySpec o db := by
  rw [foldBest_snd, bestSimilaritySpec, List.foldl_map]

theorem processToken_eq_spec (db : List (List Char)) (o : List Char) :
    processToken db o = reconcileTokenSpec db o := by
  simp only [processToken, reconcileTokenSpec]
  rw [foldBest_snd_eq_spec]
  by_cases hth : (7 / 10 : ℚ) < bestSimilaritySpec o db
  · rw [if_pos hth, if_pos hth]
    have hpos : ((none, 0) : Option (List Char) × ℚ).2 < (db.foldl (bestStep o) (none, 0)).2 := by
      rw [foldBest_snd_eq_spec]
      have : (0 : ℚ) ≤ 7 / 10 := by norm_num
      exact lt_of_le_of_lt this hth
    have hfst := foldBest_fst_of_lt o db (none, 0) hpos
    rw [foldBest_snd_eq_spec] at hfst
    rw [hfst]
    rfl
  · rw [if_neg hth, if_neg hth]

theorem reconcileFold (db : List (List Char)) :
    ∀ (l : List (List Char)) (v0 : List (List Char)) (c0 : List Correction),
      l.foldl (fun acc o =>
          (acc.1 ++ [(processToken db o).1], acc.2 ++ (processToken db o).2.toList)) (v0, c0) =
        (v0 ++ l.map (fun o => (processToken db o).1),
         c0 ++ l.filterMap (fun o => (processToken db o).2)) := by
  intro l
  induction l with
  | nil => intro v0 c0; simp
  | cons o l ih =>
    intro v0 c0
    rw [List.foldl_cons, ih]
    simp only [List.map_cons, List.filterMap_cons]
    cases h : (processToken db o).2 with
    | none => simp [h, List.append_assoc]
    | some c => simp [h, List.append_assoc]

theorem verifyIngredients_eq (ocr : List (List Char)) (raw : List Char) :
    verifyIngredients ocr raw =
      ⟨ocr.map (fun o => (processToken (parseIngredients raw) o).1),
       ocr.filterMap (fun o => (processToken (parseIngredients raw) o).2),
       parseIngredients raw⟩ := by
  simp only [verifyIngredients]
  rw [reconcileFold (parseIngredients raw) ocr [] []]
  simp

/-! ## Record Lookup and Verification Orchestrator (index.js lines 36-71, 208-300) -/

/-- A record of the external food database.  The store returns field names in
either casing, so both variants are modelled as separate optional fields. -/
structure FoodRecord where
  prdlst_nm : Option (List Char)
  PRDLST_NM : Option (List Char)
  bssh_nm : Option (List Char)
  BSSH_NM : Option (List Char)
  prdlst_report_no : Option (List Char)
  PRDLST_REPORT_NO : Option (List Char)
  rawmtrl_nm : Option (List Char)
  RAWMTRL_NM : Option (List Char)
deriving DecidableEq, Repr

/-- Decoded shape of the record-store response body. -/
structure ApiBody where
  items : Option (List FoodRecord)
deriving DecidableEq, Repr

/-- Decoded shape of the record-store response. -/
structure ApiResponse where
  body : Option ApiBody
deriving DecidableEq, Repr

/-- JS `searchFoodInDB`: the transport outcome is passed explicitly; any
thrown error is caught and turned into `none`, a response without
`body.items` yields `none`, and otherwise the first item of the list is
returned (`items.length > 0 ? items[0] : null`). -/
def searchFoodInDB (resp : Except String ApiResponse) : Option FoodRecord :=
  match resp with
  | .error _ => none
  | .ok r =>
    match r.body with
    | none => none
    | some b =>
      match b.items with
      | none => none
      | some items => items.head?

/-- JS `a || b` for a possibly absent string `a` with a string fallback:
an absent or empty (falsy) string falls through. -/
def orElseStr (a : Option (List Char)) (b : List Char) : List Char :=
  match a with
  | some s => if s = [] then b else s
  | none => b

/-- JS `a || b` for possibly absent strings on both sides. -/
def orElseOpt (a b : Option (List Char)) : Option (List Char) :=
  match a with
  | some s => if s = [] then b else some s
  | none => b

def notFoundMessage : String := "DB에서 제품을 찾을 수 없습니다. OCR 결과를 그대로 사용합니다."

def notFoundSuggestion : String := "DB에 제품이 없을 수 있습니다. 제품명을 다시 확인해주세요."

def allCorrectMessage : String := "모든 정보가 정확합니다!"

def correctedMessage (n : Nat) : String := toString n ++ "개의 항목이 수정되었습니다."

/-- The result object built when a DB product was found (index.js 251-269). -/
structure VerificationResult where
  verified : Bool
  name : List Char
  manufacturer : Option (List Char)
  reportNumber : Option (List Char)
  originalIngredients : List (List Char)
  verifiedIngredients : List (List Char)
  fromDB : List (List Char)
  corrections : List Correction
  confidence : ℕ
  message : String
deriving DecidableEq, Repr

/-- The payload returned when no DB product was found (index.js 222-240). -/
structure NotFoundPayload where
  verified : Bool
  message : String
  productName : List Char
  manufacturer : Option (List Char)
  ingredients : List (List Char)
  suggestion : String
deriving DecidableEq, Repr

/-- The two shapes of successful handler responses. -/
inductive VerifyOutput where
  | notFound (p : NotFoundPayload)
  | found (r : VerificationResult)
deriving DecidableEq, Repr

/-- The `result` object of the `verify_food_label` handler for a found DB
product, with the field fallbacks of the source. -/
def buildResult (dbProduct : FoodRecord) (productName : List Char)
    (manufacturer : Option (List Char)) (ingredients : List (List Char)) :
    VerificationResult :=
  let r := verifyIngredients ingredients
    (orElseStr dbProduct.rawmtrl_nm (orElseStr dbProduct.RAWMTRL_NM []))
  ⟨true,
   orElseStr dbProduct.prdlst_nm (orElseStr dbProduct.PRDLST_NM productName),
   orElseOpt dbProduct.bssh_nm (orElseOpt dbProduct.BSSH_NM manufacturer),
   orElseOpt dbProduct.prdlst_report_no dbProduct.PRDLST_REPORT_NO,
   ingredients, r.verified, r.dbIngredients, r.corrections,
   if r.corrections.length = 0 then 100 else 85,
   if r.corrections.length = 0 then allCorrectMessage
   else correctedMessage r.corrections.length⟩

/-- The `verify_food_label` handler after the lookup step: `dbProduct` is the
outcome of `searchFoodInDB`. -/
def verifyHandler (productName : List Char) (manufacturer : Option (List Char))
    (ingredients : List (List Char)) (dbProduct : Option FoodRecord) : VerifyOutput :=
  match dbProduct with
  | none =>
    .notFound ⟨false, notFoundMessage, productName, manufacturer, ingredients,
      notFoundSuggestion⟩
  | some p => .found (buildResult p productName manufacturer ingredients)

/-! ## Tokenizer properties -/

theorem head_dropWhile_not (p : Char → Bool) :
    ∀ (l : List Char) (c : Char), (l.dropWhile p).head? = some c → p c = false := by
  intro l
  induction l with
  | nil => intro c h; simp at h
  | cons a l ih =>
    intro c h
    rw [List.dropWhile_cons] at h
    by_cases hp : p a
    · rw [if_pos hp] at h
      exact ih c h
    · rw [if_neg hp] at h
      simp only [List.head?_cons, Option.some.injEq] at h
      rw [← h]
      exact Bool.not_eq_true _ ▸ (by simpa using hp)

theorem trim_getLast_not_ws (s : List Char) (c : Char)
    (h : (trim s).getLast? = some c) : c.isWhitespace = false := by
  unfold trim at h
  rw [List.getLast?_reverse] at h
  exact head_dropWhile_not _ _ c h

theorem trim_head_not_ws (s : List Char) (c : Char)
    (h : (trim s).head? = some c) : c.isWhitespace = false := by
  have hX : s.dropWhile Char.isWhitespace =
      trim s ++
        ((s.dropWhile Char.isWhitespace).reverse.takeWhile Char.isWhitespace).reverse := by
    unfold trim
    rw [← List.reverse_append, List.takeWhile_append_dropWhile, List.reverse_reverse]
  have hhead : (s.dropWhile Char.isWhitespace).head? = some c := by
    rw [hX, List.head?_append, h]
    rfl
  exact head_dropWhile_not _ s c hhead

theorem splitDelim_no_delim :
    ∀ (u : List Char), (∀ c ∈ u, isDelim c = false) → splitDelim u = [u] := by
  intro u
  induction u with
  | nil => intro _; rfl
  | cons a u ih =>
    intro hu
    have ha : isDelim a = false := hu a (List.mem_cons_self a u)
    show (if isDelim a then [] :: splitDelim u
          else match splitDelim u with
               | [] => [[a]]
               | t :: ts => (a :: t) :: ts) = [a :: u]
    rw [ha]
    simp only [Bool.false_eq_true, if_false]
    rw [ih (fun c hc => hu c (List.mem_cons_of_mem a hc))]

theorem splitDelim_append_delim :
    ∀ (u v : List Char) (d : Char), isDelim d = true → (∀ c ∈ u, isDelim c = false) →
      splitDelim (u ++ d :: v) = u :: splitDelim v := by
  intro u
  induction u with
  | nil =>
    intro v d hd _
    show (if isDelim d then [] :: splitDelim v
          else match splitDelim v with
               | [] => [[d]]
               | t :: ts => (d :: t) :: ts) = [] :: splitDelim v
    rw [hd]
    simp only [if_true]
  | cons a u ih =>
    intro v d hd hu
    have ha : isDelim a = false := hu a (List.mem_cons_self a u)
    show (if isDelim a then [] :: splitDelim (u ++ d :: v)
          else match splitDelim (u ++ d :: v) with
               | [] => [[a]]
               | t :: ts => (a :: t) :: ts) = (a :: u) :: splitDelim v
    rw [ha]
    simp only [Bool.false_eq_true, if_false]
    rw [ih v d hd (fun c hc => hu c (List.mem_cons_of_mem a hc))]

/-! ## Properties of the per-token reconciliation -/

theorem bestSimilaritySpec_nonneg (o : List Char) (db : List (List Char)) :
    0 ≤ bestSimilaritySpec o db := by
  unfold bestSimilaritySpec
  have : ∀ (l : List ℚ) (m : ℚ), 0 ≤ m → 0 ≤ l.foldl max m := by
    intro l
    induction l with
    | nil => intro m hm; exact hm
    | cons x l ih => intro m hm; exact ih (max m x) (le_trans hm (le_max_left m x))
  exact this _ 0 le_rfl

theorem bestSimilaritySpec_le_one (o : List Char) (db : List (List Char)) :
    bestSimilaritySpec o db ≤ 1 := by
  unfold bestSimilaritySpec
  have : ∀ (db' : List (List Char)) (m : ℚ), m ≤ 1 → (db'.map (simTo o)).foldl max m ≤ 1 := by
    intro db'
    induction db' with
    | nil => intro m hm; exact hm
    | cons d db' ih =>
      intro m hm
      rw [List.map_cons, List.foldl_cons]
      exact ih (max m (simTo o d))
        (max_le hm (calculateSimilarity_le_one (toLower o) (toLower d)))
  exact this db 0 (by norm_num)

theorem processToken_fst (db : List (List Char)) (o : List Char) :
    (processToken db o).1 = o ∨ bestMatchSpec o db = some (processToken db o).1 := by
  rw [processToken_eq_spec]
  unfold reconcileTokenSpec
  by_cases hth : (7 / 10 : ℚ) < bestSimilaritySpec o db
  · rw [if_pos hth]
    cases hm : bestMatchSpec o db with
    | none => left; rfl
    | some m => right; rfl
  · rw [if_neg hth]
    left
    rfl

theorem processToken_corr (db : List (List Char)) (o : List Char) (c : Correction)
    (h : (processToken db o).2 = some c) :
    (7 / 10 : ℚ) < bestSimilaritySpec o db ∧ c.original = o ∧
      c.confidence = jsRound (bestSimilaritySpec o db * 100) := by
  rw [processToken_eq_spec] at h
  unfold reconcileTokenSpec at h
  by_cases hth : (7 / 10 : ℚ) < bestSimilaritySpec o db
  · rw [if_pos hth] at h
    cases hm : bestMatchSpec o db with
    | none => rw [hm] at h; exact absurd h (by simp)
    | some m =>
      rw [hm] at h
      have h2 : (if o = m then none
          else some (⟨o, m, jsRound (bestSimilaritySpec o db * 100)⟩ : Correction)) =
          some c := h
      by_cases heq : o = m
      · rw [if_pos heq] at h2
        exact absurd h2 (by simp)
      · rw [if_neg heq] at h2
        simp only [Option.some.injEq] at h2
        rw [← h2]
        exact ⟨hth, rfl, rfl⟩
  · rw [if_neg hth] at h
    exact absurd h (by simp)

theorem simTo_nil_left (d : List Char) : simTo [] d = 0 := by
  unfold simTo toLower
  exact calculateSimilarity_empty (Or.inl rfl)

theorem bestSimilaritySpec_nil_left (db : List (List Char)) :
    bestSimilaritySpec [] db = 0 := by
  unfold bestSimilaritySpec
  have : ∀ (db' : List (List Char)), (db'.map (simTo [])).foldl max 0 = 0 := by
    intro db'
    induction db' with
    | nil => rfl
    | cons d db' ih =>
      rw [List.map_cons, List.foldl_cons, simTo_nil_left, max_self]
      exact ih
  exact this db

theorem processToken_nil_token (db : List (List Char)) :
    processToken db [] = ([], none) := by
  rw [processToken_eq_spec]
  unfold reconcileTokenSpec
  rw [bestSimilaritySpec_nil_left]
  rw [if_neg (by norm_num)]

theorem processToken_empty_db (o : List Char) : processToken [] o = (o, none) := by
  show (if (7 / 10 : ℚ) < ((none, 0) : Option (List Char) × ℚ).2 then _ else (o, none)) = _
  rw [if_neg (by norm_num)]

theorem verifyIngredients_verified (ocr : List (List Char)) (raw : List Char) :
    (verifyIngredients ocr raw).verified =
      ocr.map (fun o => (processToken (parseIngredients raw) o).1) := by
  rw [verifyIngredients_eq]

theorem verifyIngredients_corrections (ocr : List (List Char)) (raw : List Char) :
    (verifyIngredients ocr raw).corrections =
      ocr.filterMap (fun o => (processToken (parseIngredients raw) o).2) := by
  rw [verifyIngredients_eq]

/-! ## Claim theorems -/

/-- C1: `reconcile` processes OCR tokens in input order; for each token it
takes the similarity of the lowercased token against every lowercased DB
token, keeps the DB token with the strictly greatest similarity (first seen
wins ties), appends it to `verified` when the best similarity exceeds 0.70
(with a `Correction` carrying `round(bestSimilarity * 100)` exactly when the
matched token differs from the OCR token), and otherwise passes the OCR token
through with no correction.  Stated as: the code reconciler coincides with
the reconciler written from the specification wording. -/
theorem claim1_reconcile_refines_spec (ocr : List (List Char)) (raw : List Char) :
    verifyIngredients ocr raw = reconcileSpec ocr raw := by
  rw [verifyIngredients_eq]
  simp only [reconcileSpec, processToken_eq_spec]

/-- C3: the verified list has exactly the length of the OCR input, and the
entry at each position is either the OCR token at that position or its
best-matching DB token. -/
theorem claim3_verified_shape (ocr : List (List Char)) (raw : List Char) :
    (verifyIngredients ocr raw).verified.length = ocr.length ∧
    ∀ i : ℕ, i < ocr.length →
      (verifyIngredients ocr raw).verified.getD i [] = ocr.getD i [] ∨
      bestMatchSpec (ocr.getD i []) (parseIngredients raw) =
        some ((verifyIngredients ocr raw).verified.getD i []) := by
  rw [verifyIngredients_verified]
  refine ⟨by simp, ?_⟩
  intro i hi
  have him : i < (ocr.map (fun o => (processToken (parseIngredients raw) o).1)).length := by
    simp [hi]
  rw [List.getD_eq_getElem _ _ him, List.getD_eq_getElem _ _ hi, List.getElem_map]
  exact processToken_fst _ _

/-- C4: `calculateSimilarity` returns 0 when either input is empty and
otherwise `(max(len_a, len_b) - d) / max(len_a, len_b)` where `d` is the
classic Levenshtein distance; it is 1 on equal non-empty strings and always
lies in `[0, 1]`. -/
theorem claim4_similarity_contract (a b : List Char) :
    calculateSimilarity a b =
      (if a = [] ∨ b = [] then 0
       else ((max a.length b.length : ℕ) - (lev a b : ℚ)) /
         ((max a.length b.length : ℕ) : ℚ)) ∧
    (a ≠ [] → calculateSimilarity a a = 1) ∧
    0 ≤ calculateSimilarity a b ∧ calculateSimilarity a b ≤ 1 := by
  refine ⟨?_, fun ha => calculateSimilarity_self ha,
    calculateSimilarity_nonneg a b, calculateSimilarity_le_one a b⟩
  by_cases h : a = [] ∨ b = []
  · rw [if_pos h, calculateSimilarity_empty h]
  · rw [if_neg h]
    push_neg at h
    exact calculateSimilarity_eq h.1 h.2

/-- C5: when the DB raw text tokenizes to no tokens, `reconcile` returns the
OCR list unchanged with no corrections. -/
theorem claim5_empty_db_identity (ocr : List (List Char)) (raw : List Char)
    (h : parseIngredients raw = []) :
    verifyIngredients ocr raw = ⟨ocr, [], []⟩ := by
  rw [verifyIngredients_eq, h]
  simp [processToken_empty_db]

/-- C6: every transport failure or malformed response degrades to "no
candidate" inside `searchFoodInDB` (no exception escapes: the model is a
total function), an item list yields its first element, and the handler maps
a missing candidate to a normal not-found result echoing the OCR-supplied
product name, manufacturer and ingredient list unchanged. -/
theorem claim6_lookup_failure_soft (pn : List Char) (mf : Option (List Char))
    (ing : List (List Char)) (e : String) (x : FoodRecord) (rest : List FoodRecord) :
    searchFoodInDB (Except.error e) = none ∧
    searchFoodInDB (Except.ok ⟨none⟩) = none ∧
    searchFoodInDB (Except.ok ⟨some ⟨none⟩⟩) = none ∧
    searchFoodInDB (Except.ok ⟨some ⟨some []⟩⟩) = none ∧
    searchFoodInDB (Except.ok ⟨some ⟨some (x :: rest)⟩⟩) = some x ∧
    verifyHandler pn mf ing none =
      .notFound ⟨false, notFoundMessage, pn, mf, ing, notFoundSuggestion⟩ :=
  ⟨rfl, rfl, rfl, rfl, rfl, rfl⟩

/-- C7: for a found record the handler returns the built result, whose
overall confidence is exactly 100 when the corrections list is empty and
exactly 85 otherwise, whose message is the fixed all-correct string or the
templated correction-count string accordingly, and whose corrections are
exactly those of the reconciler. -/
theorem claim7_confidence_message (pn : List Char) (mf : Option (List Char))
    (ing : List (List Char)) (p : FoodRecord) :
    verifyHandler pn mf ing (some p) = .found (buildResult p pn mf ing) ∧
    (buildResult p pn mf ing).confidence =
      (if (buildResult p pn mf ing).corrections = [] then 100 else 85) ∧
    (buildResult p pn mf ing).message =
      (if (buildResult p pn mf ing).corrections = [] then allCorrectMessage
       else correctedMessage (buildResult p pn mf ing).corrections.length) ∧
    (buildResult p pn mf ing).corrections =
      (verifyIngredients ing (orElseStr p.rawmtrl_nm (orElseStr p.RAWMTRL_NM []))).corrections := by
  refine ⟨rfl, ?_, ?_, rfl⟩
  · show (if (verifyIngredients ing
        (orElseStr p.rawmtrl_nm (orElseStr p.RAWMTRL_NM []))).corrections.length = 0
        then 100 else 85) = _
    simp only [List.length_eq_zero]
    rfl
  · show (if (verifyIngredients ing
        (orElseStr p.rawmtrl_nm (orElseStr p.RAWMTRL_NM []))).corrections.length = 0
        then allCorrectMessage
        else correctedMessage (verifyIngredients ing
          (orElseStr p.rawmtrl_nm (orElseStr p.RAWMTRL_NM []))).corrections.length) = _
    simp only [List.length_eq_zero]
    rfl

/-- C8: the tokenizer returns the empty sequence on empty input; every
returned token is non-empty and carries no surrounding whitespace; the
tokens are the non-empty trimmed segments in order of appearance (a sublist
of the trimmed segment list, of length equal to the number of non-empty
trimmed segments); and the splitter breaks at every delimiter occurrence. -/
theorem claim8_tokenizer_contract (s : List Char) :
    parseIngredients [] = [] ∧
    (∀ t ∈ parseIngredients s, 0 < t.length ∧
      (∀ c, t.head? = some c → c.isWhitespace = false) ∧
      (∀ c, t.getLast? = some c → c.isWhitespace = false)) ∧
    (parseIngredients s).Sublist ((splitDelim s).map trim) ∧
    (parseIngredients s).length =
      ((splitDelim s).map trim).countP (fun item => 0 < item.length) ∧
    (∀ (u v : List Char) (d : Char), isDelim d = true → (∀ c ∈ u, isDelim c = false) →
      splitDelim (u ++ d :: v) = u :: splitDelim v) := by
  refine ⟨rfl, ?_, ?_, ?_, splitDelim_append_delim⟩
  · intro t ht
    unfold parseIngredients at ht
    by_cases hs : s = []
    · rw [if_pos hs] at ht
      exact absurd ht (List.not_mem_nil t)
    · rw [if_neg hs] at ht
      rw [List.mem_filter] at ht
      obtain ⟨htm, hlen⟩ := ht
      simp only [decide_eq_true_eq] at hlen
      rw [List.mem_map] at htm
      obtain ⟨seg, _, hseg⟩ := htm
      subst hseg
      exact ⟨hlen, fun c hc => trim_head_not_ws seg c hc,
        fun c hc => trim_getLast_not_ws seg c hc⟩
  · unfold parseIngredients
    by_cases hs : s = []
    · rw [if_pos hs]
      exact List.nil_sublist _
    · rw [if_neg hs]
      exact List.filter_sublist _
  · unfold parseIngredients
    by_cases hs : s = []
    · rw [if_pos hs, hs]
      rfl
    · rw [if_neg hs, List.countP_eq_length_filter]

/-- C9: every correction carries an integer confidence in `[70, 100]`: a
correction is only emitted above the 0.70 threshold, and similarities never
exceed 1, so the rounded percentage is between 70 and 100. -/
theorem claim9_confidence_range (ocr : List (List Char)) (raw : List Char)
    (c : Correction) (hc : c ∈ (verifyIngredients ocr raw).corrections) :
    70 ≤ c.confidence ∧ c.confidence ≤ 100 := by
  rw [verifyIngredients_corrections, List.mem_filterMap] at hc
  obtain ⟨o, _, ho⟩ := hc
  obtain ⟨hth, _, hconf⟩ := processToken_corr _ o c ho
  have hle := bestSimilaritySpec_le_one o (parseIngredients raw)
  rw [hconf]
  unfold jsRound
  constructor
  · rw [Int.le_floor]
    push_cast
    linarith
  · have hlt : (⌊bestSimilaritySpec o (parseIngredients raw) * 100 + 1 / 2⌋ : ℤ) < 101 := by
      rw [Int.floor_lt]
      push_cast
      linarith
    omega

/-- C10: an empty OCR token always passes through unchanged into `verified`
at its position (its similarity against every DB token is 0, below the
threshold), and no emitted correction ever has an empty original token. -/
theorem claim10_empty_token_passthrough (ocr : List (List Char)) (raw : List Char)
    (i : ℕ) (hi : i < ocr.length) (hempty : ocr.getD i [] = []) :
    (verifyIngredients ocr raw).verified.getD i [] = [] ∧
    ∀ c ∈ (verifyIngredients ocr raw).corrections, c.original ≠ [] := by
  constructor
  · rw [verifyIngredients_verified]
    have him : i < (ocr.map (fun o => (processToken (parseIngredients raw) o).1)).length := by
      simp [hi]
    rw [List.getD_eq_getElem _ _ him, List.getElem_map]
    rw [List.getD_eq_getElem _ _ hi] at hempty
    rw [hempty, processToken_nil_token]
  · intro c hc
    rw [verifyIngredients_corrections, List.mem_filterMap] at hc
    obtain ⟨o, _, ho⟩ := hc
    intro hnil
    obtain ⟨_, horig, _⟩ := processToken_corr _ o c ho
    rw [horig] at hnil
    rw [hnil, processToken_nil_token] at ho
    exact absurd ho (by simp)

/-! ## Scenario B computed on the code (claim C2) -/

theorem scenarioB_sim :
    calculateSimilarity (toLower (String.toList "밀가류")) (toLower (String.toList "밀가루")) =
      2 / 3 := by
  have hA : toLower (String.toList "밀가류") = String.toList "밀가류" := by decide
  have hB : toLower (String.toList "밀가루") = String.toList "밀가루" := by decide
  rw [hA, hB, calculateSimilarity_eq (by decide) (by decide), ← getEditDistance_eq_lev]
  have h1 : getEditDistance (String.toList "밀가류") (String.toList "밀가루") = 1 := by decide
  have h2 : (String.toList "밀가류").length = 3 := by decide
  have h3 : (String.toList "밀가루").length = 3 := by decide
  rw [h1, h2, h3]
  norm_num

theorem scenarioB_simTo : simTo (String.toList "밀가류") (String.toList "밀가루") = 2 / 3 :=
  scenarioB_sim

theorem scenarioB_processToken :
    processToken [String.toList "밀가루"] (String.toList "밀가류") =
      (String.toList "밀가류", none) := by
  unfold processToken
  rw [List.foldl_cons, List.foldl_nil,
    bestStep_pos _ _ _ (by rw [scenarioB_simTo]; norm_num)]
  simp only [scenarioB_simTo]
  rw [if_neg (by norm_num)]

theorem scenarioB_reconcile :
    verifyIngredients [String.toList "밀가류"] (String.toList "밀가루") =
      ⟨[String.toList "밀가류"], [], [String.toList "밀가루"]⟩ := by
  rw [verifyIngredients_eq]
  have hdb : parseIngredients (String.toList "밀가루") = [String.toList "밀가루"] := by decide
  rw [hdb]
  have h1 : (processToken [String.toList "밀가루"] (String.toList "밀가류")).1 =
      String.toList "밀가류" := by rw [scenarioB_processToken]
  have h2 : (processToken [String.toList "밀가루"] (String.toList "밀가류")).2 = none := by
    rw [scenarioB_processToken]
  rw [ReconcileOutput.mk.injEq]
  refine ⟨?_, ?_, rfl⟩
  · rw [List.map_cons, List.map_nil, h1]
  · rw [List.filterMap_cons, h2]
    rfl

theorem scenarioB_confidence :
    (buildResult ⟨none, none, none, none, none, none, some (String.toList "밀가루"), none⟩
      (String.toList "밀가류제품") none [String.toList "밀가류"]).confidence = 100 := by
  have hraw : orElseStr (some (String.toList "밀가루")) (orElseStr none []) =
      String.toList "밀가루" := by decide
  show (if (verifyIngredients [String.toList "밀가류"]
      (orElseStr (some (String.toList "밀가루")) (orElseStr none []))).corrections.length = 0
      then 100 else 85) = 100
  rw [hraw]
  have hc : (verifyIngredients [String.toList "밀가류"]
      (String.toList "밀가루")).corrections = [] := by rw [scenarioB_reconcile]
  rw [hc]
  rfl

/-- C2 counterexample: for `ocrIngredients = ["밀가류"]` against DB raw text
`"밀가루"` the computed similarity is 2/3, which does not exceed the 0.70
threshold, so — contrary to the claim — no correction is emitted, the token
is not replaced, and the overall confidence is 100, not 85. -/
theorem claim2_scenarioB_counterexample :
    ¬ ((7 / 10 : ℚ) <
        calculateSimilarity (toLower (String.toList "밀가류"))
          (toLower (String.toList "밀가루"))) ∧
    (verifyIngredients [String.toList "밀가류"] (String.toList "밀가루")).verified ≠
      [String.toList "밀가루"] ∧
    (verifyIngredients [String.toList "밀가류"] (String.toList "밀가루")).corrections = [] ∧
    (buildResult ⟨none, none, none, none, none, none, some (String.toList "밀가루"), none⟩
      (String.toList "밀가류제품") none [String.toList "밀가류"]).confidence ≠ 85 := by
  refine ⟨?_, ?_, ?_, ?_⟩
  · rw [scenarioB_sim]
    norm_num
  · rw [show (verifyIngredients [String.toList "밀가류"] (String.toList "밀가루")).verified =
        [String.toList "밀가류"] from by rw [scenarioB_reconcile]]
    decide
  · rw [scenarioB_reconcile]
  · rw [scenarioB_confidence]
    decide

/-- C2 amended: for `ocrIngredients = ["밀가류"]` with DB raw text `"밀가루"`
the similarity of the two tokens is 2/3 (about 0.667), which does not exceed
the 0.70 threshold, so `reconcile` returns `verified = ["밀가류"]` with no
corrections and the orchestrator's overall confidence is 100. -/
theorem claim2_scenarioB_amended :
    calculateSimilarity (toLower (String.toList "밀가류"))
      (toLower (String.toList "밀가루")) = 2 / 3 ∧
    verifyIngredients [String.toList "밀가류"] (String.toList "밀가루") =
      ⟨[String.toList "밀가류"], [], [String.toList "밀가루"]⟩ ∧
    (buildResult ⟨none, none, none, none, none, none, some (String.toList "밀가루"), none⟩
      (String.toList "밀가류제품") none [String.toList "밀가류"]).confidence = 100 :=
  ⟨scenarioB_sim, scenarioB_reconcile, scenarioB_confidence⟩

/-! ## Concrete instances for the witness theorems -/

theorem witness_sim45 :
    calculateSimilarity (toLower (String.toList "abcd")) (toLower (String.toList "abcde")) =
      4 / 5 := by
  have hA : toLower (String.toList "abcd") = String.toList "abcd" := by decide
  have hB : toLower (String.toList "abcde") = String.toList "abcde" := by decide
  rw [hA, hB, calculateSimilarity_eq (by decide) (by decide), ← getEditDistance_eq_lev]
  have h1 : getEditDistance (String.toList "abcd") (String.toList "abcde") = 1 := by decide
  have h2 : (String.toList "abcd").length = 4 := by decide
  have h3 : (String.toList "abcde").length = 5 := by decide
  rw [h1, h2, h3]
  norm_num

theorem witness_simTo45 : simTo (String.toList "abcd") (String.toList "abcde") = 4 / 5 :=
  witness_sim45

theorem witness_round80 : jsRound ((4 : ℚ) / 5 * 100) = 80 := by
  unfold jsRound
  rw [Int.floor_eq_iff]
  norm_num

theorem witness_processToken45 :
    processToken [String.toList "abcde"] (String.toList "abcd") =
      (String.toList "abcde",
        some ⟨String.toList "abcd", String.toList "abcde", 80⟩) := by
  unfold processToken
  rw [List.foldl_cons, List.foldl_nil,
    bestStep_pos _ _ _ (by rw [witness_simTo45]; norm_num)]
  simp only [witness_simTo45]
  rw [if_pos (by norm_num : (7 / 10 : ℚ) < 4 / 5)]
  show (String.toList "abcde",
      if String.toList "abcd" = String.toList "abcde" then none
      else some (⟨String.toList "abcd", String.toList "abcde",
        jsRound ((4 : ℚ) / 5 * 100)⟩ : Correction)) = _
  rw [if_neg (by decide), witness_round80]

theorem witness_corrections45 :
    (verifyIngredients [String.toList "abcd"] (String.toList "abcde")).corrections =
      [⟨String.toList "abcd", String.toList "abcde", 80⟩] := by
  rw [verifyIngredients_corrections]
  have hdb : parseIngredients (String.toList "abcde") = [String.toList "abcde"] := by decide
  rw [hdb, List.filterMap_cons]
  have h2 : (processToken [String.toList "abcde"] (String.toList "abcd")).2 =
      some ⟨String.toList "abcd", String.toList "abcde", 80⟩ := by
    rw [witness_processToken45]
  rw [h2]
  rfl

/-- Witness for C3 at a concrete input. -/
theorem claim3_verified_shape_witness :
    (verifyIngredients [String.toList "가"] []).verified.length =
      [String.toList "가"].length ∧
    ((verifyIngredients [String.toList "가"] []).verified.getD 0 [] =
        [String.toList "가"].getD 0 [] ∨
      bestMatchSpec ([String.toList "가"].getD 0 []) (parseIngredients []) =
        some ((verifyIngredients [String.toList "가"] []).verified.getD 0 [])) := by
  have h := claim3_verified_shape [String.toList "가"] []
  exact ⟨h.1, h.2 0 (by decide)⟩

/-- Witness for C4 at a concrete input. -/
theorem claim4_similarity_contract_witness :
    calculateSimilarity (String.toList "ab") (String.toList "ab") = 1 :=
  (claim4_similarity_contract (String.toList "ab") (String.toList "ab")).2.1 (by decide)

/-- Witness for C5 at a concrete input. -/
theorem claim5_empty_db_identity_witness :
    verifyIngredients [String.toList "밀가루"] [] = ⟨[String.toList "밀가루"], [], []⟩ :=
  claim5_empty_db_identity [String.toList "밀가루"] [] (by decide)

/-- Witness for C8 at a concrete input. -/
theorem claim8_tokenizer_contract_witness :
    (0 < (String.toList "a").length ∧
      (∀ c, (String.toList "a").head? = some c → c.isWhitespace = false) ∧
      (∀ c, (String.toList "a").getLast? = some c → c.isWhitespace = false)) ∧
    splitDelim (String.toList "ab" ++ ',' :: String.toList "cd") =
      String.toList "ab" :: splitDelim (String.toList "cd") := by
  have h := claim8_tokenizer_contract (String.toList " a, b ,,c/ d;")
  exact ⟨h.2.1 (String.toList "a") (by decide),
    h.2.2.2.2 (String.toList "ab") (String.toList "cd") ',' (by decide) (by decide)⟩

/-- Witness for C9 at a concrete input. -/
theorem claim9_confidence_range_witness :
    70 ≤ (⟨String.toList "abcd", String.toList "abcde", 80⟩ : Correction).confidence ∧
    (⟨String.toList "abcd", String.toList "abcde", 80⟩ : Correction).confidence ≤ 100 :=
  claim9_confidence_range [String.toList "abcd"] (String.toList "abcde") _
    (by rw [witness_corrections45]; exact List.mem_singleton_self _)

/-- Witness for C10 at a concrete input. -/
theorem claim10_empty_token_passthrough_witness :
    (verifyIngredients [([] : List Char)] (String.toList "a,b")).verified.getD 0 [] = [] ∧
    ∀ c ∈ (verifyIngredients [([] : List Char)] (String.toList "a,b")).corrections,
      c.original ≠ [] :=
  claim10_empty_token_passthrough [[]] (String.toList "a,b") 0 (by decide) (by decide)
